import Mathlib

/-!
Verification of the fitness-evaluation orchestration engine of GPUMD's NEP
trainer (`fitness.cu`: `Fitness::Fitness`, `Fitness::compute`,
`Fitness::report_error`, `Fitness::predict_energy_or_stress`,
`Fitness::update_energy_force_virial`).

The CUDA code is shallowly embedded: integer index arithmetic is modelled
over `ℕ` (all the quantities involved are small and non-negative in every
reachable state), floating-point data is modelled over `ℚ` (and over `ℝ`
where a square root is taken), the flat `fitness` output array is a function
`ℕ → α` mutated by `Function.update`, and the `for` loops are `List.foldl`
over `List.range`.  The external collaborators (`NEP3::find_force`, the
`Dataset` RMSE reductions) are abstracted: `find_force` invocations are
recorded as an explicit call trace, and the per-dataset RMSE values are
oracle parameters, except where a claim is about the RMSE itself, in which
case it is modelled from the spec (see `ssr`, `msr`, `rmse`,
`energy_shift_per_structure`).
-/

namespace GPUMD

/-- `num_batches = (structures_train.size() - 1) / para.batch_size + 1`
(`Fitness::Fitness`, fitness.cu line 42). `Nc` is the number of training
structures and `b` the requested batch size. -/
def num_batches (Nc b : ℕ) : ℕ := (Nc - 1) / b + 1

/-- `para.batch_size = (structures_train.size() - 1) / num_batches + 1`
(`Fitness::Fitness`, fitness.cu line 46): the effective batch size that
supersedes the requested one. -/
def batch_size_eff (Nc b : ℕ) : ℕ := (Nc - 1) / num_batches Nc b + 1

/-- The per-batch structure index range `[n1, n2)` with
`n1 = batch_id * para.batch_size` and
`n2 = min(structures_train.size(), n1 + para.batch_size)`
(`Fitness::Fitness`, fitness.cu lines 56-57). -/
def batchRange (Nc s batch_id : ℕ) : ℕ × ℕ := (batch_id * s, min Nc (batch_id * s + s))

/-- The list of all batch ranges produced by the `Fitness` constructor. -/
def batchRanges (Nc b : ℕ) : List (ℕ × ℕ) :=
  (List.range (num_batches Nc b)).map (fun batch_id => batchRange Nc (batch_size_eff Nc b) batch_id)

/-- The structure indices contained in a half-open range `(lo, hi)`. -/
def rangeIndices (r : ℕ × ℕ) : List ℕ := List.range' r.1 (r.2 - r.1)

/-- Helper: concatenating the windows `[w*n, min(w*(n+1), T))` for `n < k`
yields exactly `[0, min (w*k) T)`. -/
theorem segments_eq (w T : ℕ) :
    ∀ k, ((List.range k).map (fun n => List.range' (w * n) (min w (T - w * n)))).flatten =
      List.range' 0 (min (w * k) T) := by
  intro k
  induction k with
  | zero => simp
  | succ k ih =>
    rw [List.range_succ, List.map_append, List.flatten_append, ih]
    by_cases h : T ≤ w * k
    · have h1 : min w (T - w * k) = 0 := by omega
      have h2 : min (w * k) T = T := by omega
      have h3 : min (w * (k + 1)) T = T := by
        have h4 : w * (k + 1) = w * k + w := by ring
        omega
      simp [h1, h2, h3]
    · have h2 : min (w * k) T = w * k := by omega
      have h4 : w * (k + 1) = w * k + w := by ring
      have h3 : min (w * (k + 1)) T = w * k + min w (T - w * k) := by omega
      rw [h2, h3]
      rw [Nat.add_comm (w * k) (min w (T - w * k)), ← List.range'_append_1 0 (w * k)]
      simp

/-- Helper: `(N-1)/d + 1` is the ceiling `(N + d - 1)/d` when `0 < N` and `0 < d`. -/
theorem pred_div_succ_eq_ceil (N d : ℕ) (hN : 0 < N) (hd : 0 < d) :
    (N - 1) / d + 1 = (N + d - 1) / d := by
  have h1 : (N - 1 + d) / d = (N - 1) / d + 1 := Nat.add_div_right (N - 1) hd
  have h2 : N - 1 + d = N + d - 1 := by omega
  rw [← h2]
  exact h1.symm

/-- Helper: `((N-1)/d + 1) * d ≥ N` (the ceiling times the divisor covers `N`). -/
theorem ceil_mul_ge (N d : ℕ) (hd : 0 < d) : N ≤ ((N - 1) / d + 1) * d := by
  rcases Nat.eq_zero_or_pos N with h0 | h0
  · omega
  have h1 := Nat.div_add_mod (N - 1) d
  have h2 : (N - 1) % d < d := Nat.mod_lt _ hd
  calc N = d * ((N - 1) / d) + (N - 1) % d + 1 := by omega
  _ ≤ d * ((N - 1) / d) + d := by omega
  _ = ((N - 1) / d + 1) * d := by ring

/-- C2: for `Nc > 0` and requested batch size `b > 0`, the constructed batch
partition consists of `num_batches = ceil(Nc/b)` contiguous ranges
`[batch_id*s, min(Nc, batch_id*s + s))` with effective batch size
`s = ceil(Nc/num_batches)` superseding the requested one, and their
concatenation enumerates `[0, Nc)` exactly once. -/
theorem fitness_batch_partition (Nc b : ℕ) (hNc : 0 < Nc) (hb : 0 < b) :
    num_batches Nc b = (Nc + b - 1) / b ∧
    batch_size_eff Nc b = (Nc + num_batches Nc b - 1) / num_batches Nc b ∧
    ((batchRanges Nc b).map rangeIndices).flatten = List.range Nc := by
  have hnb : 0 < num_batches Nc b := Nat.succ_le_succ (Nat.zero_le _)
  refine ⟨pred_div_succ_eq_ceil Nc b hNc hb, pred_div_succ_eq_ceil Nc _ hNc hnb, ?_⟩
  set s := batch_size_eff Nc b with hs
  have hs0 : 0 < s := Nat.succ_le_succ (Nat.zero_le _)
  have hcover : Nc ≤ s * num_batches Nc b := by
    have := ceil_mul_ge Nc (num_batches Nc b) hnb
    calc Nc ≤ ((Nc - 1) / num_batches Nc b + 1) * num_batches Nc b := this
    _ = s * num_batches Nc b := by rw [hs]; rfl
  have hmap : (batchRanges Nc b).map rangeIndices =
      (List.range (num_batches Nc b)).map
        (fun n => List.range' (s * n) (min s (Nc - s * n))) := by
    rw [batchRanges, List.map_map]
    refine List.map_congr_left ?_
    intro k _
    simp only [Function.comp_apply, batchRange, rangeIndices]
    have h1 : min Nc (k * s + s) - k * s = min s (Nc - s * k) := by
      rw [Nat.mul_comm s k]; omega
    rw [h1, Nat.mul_comm k s]
  rw [hmap, segments_eq s Nc (num_batches Nc b)]
  have : min (s * num_batches Nc b) Nc = Nc := by omega
  rw [this, List.range_eq_range']

/-- Witness for C2 at `Nc = 5`, `b = 4`: two batches of effective size 3. -/
theorem fitness_batch_partition_wit : 0 < 5 ∧ 0 < 4 ∧
    (num_batches 5 4 = (5 + 4 - 1) / 4 ∧
     batch_size_eff 5 4 = (5 + num_batches 5 4 - 1) / num_batches 5 4 ∧
     ((batchRanges 5 4).map rangeIndices).flatten = List.range 5) :=
  ⟨by decide, by decide, fitness_batch_partition 5 4 (by decide) (by decide)⟩

/-- `device_in_this_iter = std::min(deviceCount, para.population_size - deviceCount * n)`
(`Fitness::compute`, fitness.cu line 135): the number of devices active in
population chunk `n`. -/
def device_in_this_iter (dc P n : ℕ) : ℕ := min dc (P - dc * n)

/-- `min_population_iter = (para.population_size - 1)/deviceCount + 1`
(`Fitness::compute`, fitness.cu line 122): the number of population chunks. -/
def min_population_iter (dc P : ℕ) : ℕ := (P - 1) / dc + 1

/-- The (chunk, device) pairs visited by the scoring loops of
`Fitness::compute` (fitness.cu lines 133-147): for each chunk `n`, the
devices `m < device_in_this_iter`. -/
def dispatch (dc P : ℕ) : List (ℕ × ℕ) :=
  ((List.range (min_population_iter dc P)).map
    (fun n => (List.range (device_in_this_iter dc P n)).map (fun m => (n, m)))).flatten

/-- The global population index evaluated by device `m` of chunk `n`:
`deviceCount * n + m` (fitness.cu lines 134-139). -/
def individualOf (dc : ℕ) (nm : ℕ × ℕ) : ℕ := dc * nm.1 + nm.2

/-- C3: for population size `P > 0` and `deviceCount > 0`, the population is
processed in `ceil(P/deviceCount)` chunks, chunk `n` dispatching individual
`deviceCount*n + d` to device `d` for `d < min(deviceCount, P - deviceCount*n)`,
and the dispatched individuals enumerate `{0, ..., P-1}` exactly once. -/
theorem fitness_dispatch_cover (dc P : ℕ) (hdc : 0 < dc) (hP : 0 < P) :
    min_population_iter dc P = (P + dc - 1) / dc ∧
    (dispatch dc P).map (individualOf dc) = List.range P := by
  refine ⟨pred_div_succ_eq_ceil P dc hP hdc, ?_⟩
  have hmap : (dispatch dc P).map (individualOf dc) =
      ((List.range (min_population_iter dc P)).map
        (fun n => List.range' (dc * n) (min dc (P - dc * n)))).flatten := by
    rw [dispatch, List.map_flatten, List.map_map]
    congr 1
    refine List.map_congr_left ?_
    intro n _
    simp only [Function.comp_apply, List.map_map]
    rw [List.range'_eq_map_range]
    refine List.map_congr_left ?_
    intro m _
    simp [individualOf]
  rw [hmap, segments_eq dc P (min_population_iter dc P)]
  have hcov : P ≤ dc * min_population_iter dc P := by
    have := ceil_mul_ge P dc hdc
    rw [min_population_iter, Nat.mul_comm]
    exact this
  have : min (dc * min_population_iter dc P) P = P := by omega
  rw [this, List.range_eq_range']

/-- Witness for C3 at `deviceCount = 2`, `P = 5`: three chunks, individuals `0..4`. -/
theorem fitness_dispatch_cover_wit : 0 < 2 ∧ 0 < 5 ∧
    (min_population_iter 2 5 = (5 + 2 - 1) / 2 ∧
     (dispatch 2 5).map (individualOf 2) = List.range 5) :=
  ⟨by decide, by decide, fitness_dispatch_cover 2 5 (by decide) (by decide)⟩

/-- One write group of `Fitness::compute` for a single evaluated individual
(fitness.cu lines 139-145): `fitness[base + 0*P] = ve`,
`fitness[base + 1*P] = vf`, `fitness[base + 2*P] = vv`, in program order
(the outermost update is the last store). -/
def writeOne {α : Type} (P base : ℕ) (ve vf vv : α) (f : ℕ → α) : ℕ → α :=
  Function.update (Function.update (Function.update f base ve) (base + P) vf) (base + 2 * P) vv

/-- The inner device loop of `Fitness::compute` for population chunk `n`
(fitness.cu lines 137-147): for each active device `m`, store the three
weighted RMSE components of the individual `deviceCount*n + m`. The RMSE
values returned by `Dataset::get_rmse_{energy,force,virial}` after each
`find_force` are abstracted as the oracles `rE rF rV : ℕ → α` (indexed by
the device `m`). -/
def chunkWrites {α : Type} [Mul α] (dc P : ℕ) (lam_e lam_f lam_v : α)
    (rE rF rV : ℕ → α) (n : ℕ) (f : ℕ → α) : ℕ → α :=
  (List.range (device_in_this_iter dc P n)).foldl
    (fun g m => writeOne P (dc * n + m) (lam_e * rE m) (lam_f * rF m) (lam_v * rV m) g) f

/-- The effect of `Fitness::compute` (fitness.cu lines 117-150) on the
`fitness` output array. In the warm-up generation (`generation == 0`) the
array is returned untouched; in a scoring generation the chunk loop writes
the three weighted RMSE components of every individual. The oracles
`rE rF rV` are indexed by (batch, chunk, device). -/
def computeFitness {α : Type} [Mul α] (dc P nb : ℕ) (lam_e lam_f lam_v : α)
    (rE rF rV : ℕ → ℕ → ℕ → α) (generation : ℕ) (fitness : ℕ → α) : ℕ → α :=
  if generation = 0 then fitness
  else
    (List.range (min_population_iter dc P)).foldl
      (fun f2 n => chunkWrites dc P lam_e lam_f lam_v
        (rE (generation % nb) n) (rF (generation % nb) n) (rV (generation % nb) n) n f2) fitness

/-- A recorded invocation of `NEP3::find_force` issued by `Fitness::compute`:
the parameter data read from the passed pointer, the training batch index
(or the test set), the warm-up flag and the number of active devices. -/
inductive FFCall where
  | train (params : List ℚ) (batch : ℕ) (warmup : Bool) (ndev : ℕ)
  | test (params : List ℚ) (warmup : Bool) (ndev : ℕ)
deriving DecidableEq

/-- The parameter data passed to a recorded `find_force` invocation. -/
def FFCall.params : FFCall → List ℚ
  | .train p _ _ _ => p
  | .test p _ _ => p

/-- The `find_force` call trace of `Fitness::compute` (fitness.cu lines
124-136). In generation 0 the loop body issues, for every training batch, a
warm-up call on that batch followed by a warm-up call on the test set, all
with the all-ones `dummy_solution` of length `number_of_variables`. In a
scoring generation each chunk issues one call on the selected batch with the
population data starting at offset `deviceCount*n*number_of_variables`. -/
def computeCalls (dc P nb num_vars : ℕ) (population : ℕ → ℚ) (generation : ℕ) : List FFCall :=
  if generation = 0 then
    ((List.range nb).map (fun n =>
      [FFCall.train (List.replicate num_vars 1) n true dc,
       FFCall.test (List.replicate num_vars 1) true 1])).flatten
  else
    (List.range (min_population_iter dc P)).map (fun n =>
      FFCall.train
        ((List.range (device_in_this_iter dc P n * num_vars)).map
          (fun j => population (dc * n * num_vars + j)))
        (generation % nb) false (device_in_this_iter dc P n))

theorem writeOne_ne {α : Type} (P base : ℕ) (ve vf vv : α) (f : ℕ → α) (i : ℕ)
    (h0 : i ≠ base) (h1 : i ≠ base + P) (h2 : i ≠ base + 2 * P) :
    writeOne P base ve vf vv f i = f i := by
  simp [writeOne, Function.update_apply, h0, h1, h2]

theorem writeOne_apply_e {α : Type} (P base : ℕ) (ve vf vv : α) (f : ℕ → α) (hP : 0 < P) :
    writeOne P base ve vf vv f base = ve := by
  have h1 : base ≠ base + P := by omega
  have h2 : base ≠ base + 2 * P := by omega
  simp [writeOne, Function.update_apply, h1, h2]

theorem writeOne_apply_f {α : Type} (P base : ℕ) (ve vf vv : α) (f : ℕ → α) (hP : 0 < P) :
    writeOne P base ve vf vv f (base + P) = vf := by
  have h2 : base + P ≠ base + 2 * P := by omega
  simp [writeOne, Function.update_apply, h2]

theorem writeOne_apply_v {α : Type} (P base : ℕ) (ve vf vv : α) (f : ℕ → α) :
    writeOne P base ve vf vv f (base + 2 * P) = vv := by
  simp [writeOne]

theorem foldl_writeOne_ne {α : Type} (P : ℕ) (base : ℕ → ℕ) (ve vf vv : ℕ → α) (i : ℕ) :
    ∀ (l : List ℕ) (f : ℕ → α),
      (∀ m ∈ l, i ≠ base m ∧ i ≠ base m + P ∧ i ≠ base m + 2 * P) →
      (l.foldl (fun g m => writeOne P (base m) (ve m) (vf m) (vv m) g) f) i = f i := by
  intro l
  induction l with
  | nil => intro f _; rfl
  | cons m l ih =>
    intro f h
    rw [List.foldl_cons, ih _ (fun m' hm' => h m' (List.mem_cons_of_mem m hm'))]
    exact writeOne_ne P (base m) (ve m) (vf m) (vv m) f i
      (h m (List.mem_cons_self m l)).1
      (h m (List.mem_cons_self m l)).2.1
      (h m (List.mem_cons_self m l)).2.2

theorem foldl_writeOne_eq {α : Type} (P : ℕ) (base : ℕ → ℕ) (ve vf vv : ℕ → α) (i : ℕ) (v : α)
    (l : List ℕ) (f : ℕ → α) (hf : f i = v)
    (h : ∀ m ∈ l, i ≠ base m ∧ i ≠ base m + P ∧ i ≠ base m + 2 * P) :
    (l.foldl (fun g m => writeOne P (base m) (ve m) (vf m) (vv m) g) f) i = v := by
  rw [foldl_writeOne_ne P base ve vf vv i l f h]; exact hf

theorem chunkWrites_ne {α : Type} [Mul α] (dc P : ℕ) (lam_e lam_f lam_v : α)
    (rE rF rV : ℕ → α) (n : ℕ) (f : ℕ → α) (i : ℕ)
    (h : ∀ m < device_in_this_iter dc P n,
        i ≠ dc * n + m ∧ i ≠ dc * n + m + P ∧ i ≠ dc * n + m + 2 * P) :
    chunkWrites dc P lam_e lam_f lam_v rE rF rV n f i = f i :=
  foldl_writeOne_ne P (fun m => dc * n + m) (fun m => lam_e * rE m) (fun m => lam_f * rF m)
    (fun m => lam_v * rV m) i (List.range (device_in_this_iter dc P n)) f
    (fun m hm => h m (List.mem_range.mp hm))

theorem chunkWrites_apply {α : Type} [Mul α] (dc P : ℕ) (lam_e lam_f lam_v : α)
    (rE rF rV : ℕ → α) (n m0 : ℕ) (hm0 : m0 < device_in_this_iter dc P n) (f : ℕ → α) :
    chunkWrites dc P lam_e lam_f lam_v rE rF rV n f (dc * n + m0) = lam_e * rE m0 ∧
    chunkWrites dc P lam_e lam_f lam_v rE rF rV n f (dc * n + m0 + P) = lam_f * rF m0 ∧
    chunkWrites dc P lam_e lam_f lam_v rE rF rV n f (dc * n + m0 + 2 * P) = lam_v * rV m0 := by
  have hmP : m0 < P - dc * n := lt_of_lt_of_le hm0 (Nat.min_le_right _ _)
  have hiP : dc * n + m0 < P := by omega
  have hcnt : device_in_this_iter dc P n ≤ P - dc * n := Nat.min_le_right _ _
  have hsplit : device_in_this_iter dc P n = m0 + ((device_in_this_iter dc P n - m0 - 1) + 1) := by
    omega
  have hrange : List.range (device_in_this_iter dc P n) =
      List.range m0 ++ (m0 ::
        (List.range (device_in_this_iter dc P n - m0 - 1)).map (fun j => m0 + (j + 1))) := by
    conv_lhs => rw [hsplit]
    rw [List.range_add, List.range_succ_eq_map, List.map_cons, List.map_map]
    simp [Function.comp_def]
  rw [chunkWrites, hrange, List.foldl_append, List.foldl_cons]
  have hsuf : ∀ m' ∈ (List.range (device_in_this_iter dc P n - m0 - 1)).map
      (fun j => m0 + (j + 1)), m0 < m' ∧ dc * n + m' < P := by
    intro m' hm'
    rcases List.mem_map.mp hm' with ⟨j, hj, rfl⟩
    have := List.mem_range.mp hj
    omega
  refine ⟨?_, ?_, ?_⟩
  · exact foldl_writeOne_eq P (fun m => dc * n + m) (fun m => lam_e * rE m)
      (fun m => lam_f * rF m) (fun m => lam_v * rV m) (dc * n + m0) (lam_e * rE m0) _ _
      (writeOne_apply_e P (dc * n + m0) _ _ _ _ (by omega))
      (fun m' hm' => by
        have h := hsuf m' hm'
        have hgoal : dc * n + m0 ≠ dc * n + m' ∧ dc * n + m0 ≠ dc * n + m' + P ∧
            dc * n + m0 ≠ dc * n + m' + 2 * P := by omega
        exact hgoal)
  · exact foldl_writeOne_eq P (fun m => dc * n + m) (fun m => lam_e * rE m)
      (fun m => lam_f * rF m) (fun m => lam_v * rV m) (dc * n + m0 + P) (lam_f * rF m0) _ _
      (writeOne_apply_f P (dc * n + m0) _ _ _ _ (by omega))
      (fun m' hm' => by
        have h := hsuf m' hm'
        have hgoal : dc * n + m0 + P ≠ dc * n + m' ∧ dc * n + m0 + P ≠ dc * n + m' + P ∧
            dc * n + m0 + P ≠ dc * n + m' + 2 * P := by omega
        exact hgoal)
  · exact foldl_writeOne_eq P (fun m => dc * n + m) (fun m => lam_e * rE m)
      (fun m => lam_f * rF m) (fun m => lam_v * rV m) (dc * n + m0 + 2 * P) (lam_v * rV m0) _ _
      (writeOne_apply_v P (dc * n + m0) _ _ _ _)
      (fun m' hm' => by
        have h := hsuf m' hm'
        have hgoal : dc * n + m0 + 2 * P ≠ dc * n + m' ∧
            dc * n + m0 + 2 * P ≠ dc * n + m' + P ∧
            dc * n + m0 + 2 * P ≠ dc * n + m' + 2 * P := by omega
        exact hgoal)

theorem foldl_chunk_ne {α : Type} [Mul α] (dc P : ℕ) (lam_e lam_f lam_v : α)
    (rE rF rV : ℕ → ℕ → α) (i : ℕ) :
    ∀ (l : List ℕ) (f : ℕ → α),
      (∀ n ∈ l, ∀ m < device_in_this_iter dc P n,
        i ≠ dc * n + m ∧ i ≠ dc * n + m + P ∧ i ≠ dc * n + m + 2 * P) →
      (l.foldl (fun f2 n => chunkWrites dc P lam_e lam_f lam_v (rE n) (rF n) (rV n) n f2) f) i
        = f i := by
  intro l
  induction l with
  | nil => intro f _; rfl
  | cons n l ih =>
    intro f h
    rw [List.foldl_cons, ih _ (fun n' hn' => h n' (List.mem_cons_of_mem n hn'))]
    exact chunkWrites_ne dc P lam_e lam_f lam_v (rE n) (rF n) (rV n) n f i
      (h n (List.mem_cons_self n l))

theorem computeFitness_apply {α : Type} [Mul α] (dc P nb : ℕ) (lam_e lam_f lam_v : α)
    (rE rF rV : ℕ → ℕ → ℕ → α) (generation : ℕ) (hg : generation ≠ 0)
    (n0 m0 : ℕ) (hn0 : n0 < min_population_iter dc P)
    (hm0 : m0 < device_in_this_iter dc P n0) (f : ℕ → α) :
    computeFitness dc P nb lam_e lam_f lam_v rE rF rV generation f (dc * n0 + m0) =
      lam_e * rE (generation % nb) n0 m0 ∧
    computeFitness dc P nb lam_e lam_f lam_v rE rF rV generation f (dc * n0 + m0 + P) =
      lam_f * rF (generation % nb) n0 m0 ∧
    computeFitness dc P nb lam_e lam_f lam_v rE rF rV generation f (dc * n0 + m0 + 2 * P) =
      lam_v * rV (generation % nb) n0 m0 := by
  have hmP : m0 < P - dc * n0 := lt_of_lt_of_le hm0 (Nat.min_le_right _ _)
  have hmdc : m0 < dc := lt_of_lt_of_le hm0 (Nat.min_le_left _ _)
  have hiP : dc * n0 + m0 < P := by omega
  rw [computeFitness, if_neg hg]
  have hsplit : min_population_iter dc P =
      n0 + ((min_population_iter dc P - n0 - 1) + 1) := by omega
  have hrange : List.range (min_population_iter dc P) =
      List.range n0 ++ (n0 ::
        (List.range (min_population_iter dc P - n0 - 1)).map (fun j => n0 + (j + 1))) := by
    conv_lhs => rw [hsplit]
    rw [List.range_add, List.range_succ_eq_map, List.map_cons, List.map_map]
    simp [Function.comp_def]
  rw [hrange, List.foldl_append, List.foldl_cons]
  have hsuf : ∀ n' ∈ (List.range (min_population_iter dc P - n0 - 1)).map
      (fun j => n0 + (j + 1)), ∀ m < device_in_this_iter dc P n',
      dc * n0 + m0 < dc * n' + m ∧ dc * n' + m < P := by
    intro n' hn' m hm
    rcases List.mem_map.mp hn' with ⟨j, _, rfl⟩
    have h1 : m < P - dc * (n0 + (j + 1)) := lt_of_lt_of_le hm (Nat.min_le_right _ _)
    have h2 : dc * (n0 + 1) ≤ dc * (n0 + (j + 1)) := Nat.mul_le_mul (Nat.le_refl dc) (by omega)
    have h3 : dc * (n0 + 1) = dc * n0 + dc := by ring
    omega
  have happ := chunkWrites_apply dc P lam_e lam_f lam_v
    (rE (generation % nb) n0) (rF (generation % nb) n0) (rV (generation % nb) n0) n0 m0 hm0
    ((List.range n0).foldl (fun f2 n => chunkWrites dc P lam_e lam_f lam_v
      (rE (generation % nb) n) (rF (generation % nb) n) (rV (generation % nb) n) n f2) f)
  refine ⟨?_, ?_, ?_⟩
  · rw [foldl_chunk_ne dc P lam_e lam_f lam_v (rE (generation % nb)) (rF (generation % nb))
      (rV (generation % nb)) (dc * n0 + m0) _ _
      (fun n' hn' m hm => by have := hsuf n' hn' m hm; omega)]
    exact happ.1
  · rw [foldl_chunk_ne dc P lam_e lam_f lam_v (rE (generation % nb)) (rF (generation % nb))
      (rV (generation % nb)) (dc * n0 + m0 + P) _ _
      (fun n' hn' m hm => by have := hsuf n' hn' m hm; omega)]
    exact happ.2.1
  · rw [foldl_chunk_ne dc P lam_e lam_f lam_v (rE (generation % nb)) (rF (generation % nb))
      (rV (generation % nb)) (dc * n0 + m0 + 2 * P) _ _
      (fun n' hn' m hm => by have := hsuf n' hn' m hm; omega)]
    exact happ.2.2

theorem computeFitness_frame {α : Type} [Mul α] (dc P nb : ℕ) (lam_e lam_f lam_v : α)
    (rE rF rV : ℕ → ℕ → ℕ → α) (generation : ℕ) (f : ℕ → α) (j : ℕ) (hj : 3 * P ≤ j) :
    computeFitness dc P nb lam_e lam_f lam_v rE rF rV generation f j = f j := by
  rw [computeFitness]
  by_cases hg : generation = 0
  · rw [if_pos hg]
  · rw [if_neg hg]
    refine foldl_chunk_ne dc P lam_e lam_f lam_v _ _ _ j _ f ?_
    intro n _ m hm
    have h1 : m < P - dc * n := lt_of_lt_of_le hm (Nat.min_le_right _ _)
    omega

/-- The batch selected for a scoring generation:
`batch_id = generation % num_batches` (fitness.cu line 132, and again in
`Fitness::report_error`, line 174). -/
def batchOf (nb generation : ℕ) : ℕ := generation % nb

/-- Helper: in any window of `nb` consecutive generations, each residue
`b < nb` is hit by `(g + j) % nb` for exactly one offset `j < nb`. -/
theorem mod_window_unique (nb : ℕ) (hnb : 0 < nb) (g b : ℕ) (hb : b < nb) :
    ∃! j, j < nb ∧ (g + j) % nb = b := by
  have hr : g % nb < nb := Nat.mod_lt g hnb
  have hex : ((nb + b - g % nb) % nb < nb) ∧ (g + (nb + b - g % nb) % nb) % nb = b := by
    refine ⟨Nat.mod_lt _ hnb, ?_⟩
    rcases le_or_lt (g % nb) b with hle | hlt
    · have h1 : (nb + b - g % nb) % nb = b - g % nb := by
        have he : nb + b - g % nb = (b - g % nb) + nb := by omega
        rw [he, Nat.add_mod_right]
        exact Nat.mod_eq_of_lt (by omega)
      rw [h1, Nat.add_mod]
      have h2 : (b - g % nb) % nb = b - g % nb := Nat.mod_eq_of_lt (by omega)
      rw [h2]
      have h3 : g % nb + (b - g % nb) = b := by omega
      rw [h3]
      exact Nat.mod_eq_of_lt hb
    · have h1 : (nb + b - g % nb) % nb = nb + b - g % nb := Nat.mod_eq_of_lt (by omega)
      rw [h1, Nat.add_mod]
      rw [h1]
      have h3 : g % nb + (nb + b - g % nb) = b + nb := by omega
      rw [h3, Nat.add_mod_right]
      exact Nat.mod_eq_of_lt hb
  refine ⟨(nb + b - g % nb) % nb, hex, ?_⟩
  rintro j ⟨hj, hjb⟩
  have he : (g + j) % nb = (g + (nb + b - g % nb) % nb) % nb := by rw [hjb, hex.2]
  have hm : j % nb = (nb + b - g % nb) % nb % nb := Nat.ModEq.add_left_cancel' g he
  rwa [Nat.mod_eq_of_lt hj, Nat.mod_mod_of_dvd _ (dvd_refl nb)] at hm

/-- C1: in a scoring generation (`generation > 0`), for the individual with
global index `i = deviceCount*n + m` evaluated in chunk `n` on device `m`,
`Fitness::compute` stores exactly three fitness components, at positions
`i`, `i + population_size` and `i + 2*population_size`: `lambda_e`,
`lambda_f` and `lambda_v` times the energy, force and virial RMSE of that
device's Dataset for the selected batch `generation % num_batches`; and no
position at or beyond `3 * population_size` is touched, so no single
combined scalar is produced. -/
theorem fitness_compute_three_components (dc P nb generation : ℕ) (hg : generation ≠ 0)
    (lam_e lam_f lam_v : ℚ) (rE rF rV : ℕ → ℕ → ℕ → ℚ) (fitness : ℕ → ℚ)
    (n m : ℕ) (hn : n < min_population_iter dc P) (hm : m < device_in_this_iter dc P n) :
    dc * n + m < P ∧
    computeFitness dc P nb lam_e lam_f lam_v rE rF rV generation fitness (dc * n + m) =
      lam_e * rE (generation % nb) n m ∧
    computeFitness dc P nb lam_e lam_f lam_v rE rF rV generation fitness (dc * n + m + P) =
      lam_f * rF (generation % nb) n m ∧
    computeFitness dc P nb lam_e lam_f lam_v rE rF rV generation fitness (dc * n + m + 2 * P) =
      lam_v * rV (generation % nb) n m ∧
    (∀ j, 3 * P ≤ j →
      computeFitness dc P nb lam_e lam_f lam_v rE rF rV generation fitness j = fitness j) := by
  have hmP : m < P - dc * n := lt_of_lt_of_le hm (Nat.min_le_right _ _)
  have h := computeFitness_apply dc P nb lam_e lam_f lam_v rE rF rV generation hg n m hn hm fitness
  exact ⟨by omega, h.1, h.2.1, h.2.2,
    fun j hj => computeFitness_frame dc P nb lam_e lam_f lam_v rE rF rV generation fitness j hj⟩

/-- Witness for C1: one device, population 2, generation 1; the energy slot
of individual 0 receives `lambda_e * rmse = 2 * 5`. -/
theorem fitness_compute_three_components_wit :
    computeFitness 1 2 1 (2:ℚ) 3 4 (fun _ _ _ => 5) (fun _ _ _ => 6) (fun _ _ _ => 7) 1
      (fun _ => 0) 0 = 10 := by
  have h := (fitness_compute_three_components 1 2 1 1 (by decide) 2 3 4
    (fun _ _ _ => 5) (fun _ _ _ => 6) (fun _ _ _ => 7) (fun _ => 0) 0 0
    (by decide) (by decide)).2.1
  norm_num at h
  exact h

/-- C4: the scoring batch is `generation % num_batches`, deterministically:
the mapping is periodic with period `num_batches`, every training call of a
scoring generation targets batch `generation % num_batches`, and over any
window of `num_batches` consecutive generations every batch is selected
exactly once. -/
theorem fitness_batch_round_robin (nb : ℕ) (hnb : 0 < nb) :
    (∀ generation, batchOf nb (generation + nb) = batchOf nb generation) ∧
    (∀ dc P num_vars pop generation params b w nd, generation ≠ 0 →
      FFCall.train params b w nd ∈ computeCalls dc P nb num_vars pop generation →
      b = batchOf nb generation) ∧
    (∀ generation b, b < nb → ∃! j, j < nb ∧ batchOf nb (generation + j) = b) := by
  refine ⟨fun g => Nat.add_mod_right g nb, ?_, ?_⟩
  · intro dc P num_vars pop g params b w nd hg hmem
    rw [computeCalls, if_neg hg] at hmem
    rcases List.mem_map.mp hmem with ⟨n, _, heq⟩
    have := (FFCall.train.injEq _ _ _ _ _ _ _ _).mp heq
    exact this.2.1.symm
  · intro g b hb
    simp only [batchOf]
    exact mod_window_unique nb hnb g b hb

/-- Witness for C4 at `num_batches = 3`. -/
theorem fitness_batch_round_robin_wit : 0 < 3 ∧ batchOf 3 (7 + 3) = batchOf 3 7 :=
  ⟨by decide, (fitness_batch_round_robin 3 (by decide)).1 7⟩

/-- C5: in the warm-up generation (`generation == 0`), `Fitness::compute`
issues `find_force` evaluations of the all-ones `dummy_solution` of length
`number_of_variables` on every training batch and on the full test set, and
leaves the fitness output array entirely unchanged. -/
theorem fitness_warmup (dc P nb num_vars : ℕ) (hnb : 0 < nb)
    (lam_e lam_f lam_v : ℚ) (rE rF rV : ℕ → ℕ → ℕ → ℚ) (pop : ℕ → ℚ) (fitness : ℕ → ℚ) :
    (∀ i, computeFitness dc P nb lam_e lam_f lam_v rE rF rV 0 fitness i = fitness i) ∧
    (∀ c ∈ computeCalls dc P nb num_vars pop 0, c.params = List.replicate num_vars 1) ∧
    (List.replicate num_vars (1:ℚ)).length = num_vars ∧
    (∀ x ∈ List.replicate num_vars (1:ℚ), x = 1) ∧
    (∀ b < nb, FFCall.train (List.replicate num_vars 1) b true dc ∈
      computeCalls dc P nb num_vars pop 0) ∧
    FFCall.test (List.replicate num_vars 1) true 1 ∈ computeCalls dc P nb num_vars pop 0 := by
  refine ⟨fun i => by rw [computeFitness, if_pos rfl], ?_, List.length_replicate _ _,
    fun x hx => List.eq_of_mem_replicate hx, ?_, ?_⟩
  · intro c hc
    rw [computeCalls, if_pos rfl] at hc
    rcases List.mem_flatten.mp hc with ⟨l, hl, hcl⟩
    rcases List.mem_map.mp hl with ⟨n, _, rfl⟩
    simp only [List.mem_cons, List.not_mem_nil, or_false] at hcl
    rcases hcl with rfl | rfl <;> rfl
  · intro b hb
    rw [computeCalls, if_pos rfl]
    refine List.mem_flatten.mpr ⟨_, List.mem_map.mpr ⟨b, List.mem_range.mpr hb, rfl⟩, ?_⟩
    simp
  · rw [computeCalls, if_pos rfl]
    refine List.mem_flatten.mpr ⟨_, List.mem_map.mpr ⟨0, List.mem_range.mpr hnb, rfl⟩, ?_⟩
    simp

/-- Witness for C5 at `num_batches = 1`: the fitness array is untouched and
the test-set warm-up call is present. -/
theorem fitness_warmup_wit :
    computeFitness 1 3 1 (0:ℚ) 0 0 (fun _ _ _ => 0) (fun _ _ _ => 0) (fun _ _ _ => 0) 0
      (fun _ => 9) 5 = 9 ∧
    FFCall.test (List.replicate 4 1) true 1 ∈ computeCalls 1 3 1 4 (fun _ => 0) 0 :=
  ⟨(fitness_warmup 1 3 1 4 (by decide) 0 0 0 (fun _ _ _ => 0) (fun _ _ _ => 0)
      (fun _ _ _ => 0) (fun _ => 0) (fun _ => 9)).1 5,
   (fitness_warmup 1 3 1 4 (by decide) 0 0 0 (fun _ _ _ => 0) (fun _ _ _ => 0)
      (fun _ _ _ => 0) (fun _ => 0) (fun _ => 9)).2.2.2.2.2⟩

/-- A `find_force` invocation issued by `Fitness::report_error`: the batch
evaluated (or the test set), the device count, and whether the elite data
used is the bias-corrected vector. -/
inductive RCall where
  | trainEval (batch : ℕ) (ndev : ℕ) (corrected : Bool)
  | testEval (ndev : ℕ) (corrected : Bool)
deriving DecidableEq

/-- The observable effect of one `Fitness::report_error` invocation
(fitness.cu lines 164-301): whether the checkpoint body ran, whether the
extended training-set dump ran, the `find_force` calls issued, the elite
vector after the bias correction, and, for each iteration of the extended
dump loop, the (batch, device) index pair of the Dataset evaluated and of
the Dataset handed to `update_energy_force_virial`. -/
structure ReportResult where
  fired : Bool
  trainDumpFired : Bool
  calls : List RCall
  elite : ℕ → ℚ
  evalTrainPairs : List (ℕ × ℕ)
  dumpTrainPairs : List (ℕ × ℕ)

/-- `Fitness::report_error`. The guard `0 == (generation + 1) % 100`
(line 173) selects checkpoint generations. Inside it the current batch
`generation % num_batches` is evaluated with the elite, the shift returned
by `Dataset::get_rmse_energy` (the oracle argument `shift`) is added to the
last ANN bias parameter `elite[number_of_variables_ann - 1]` (line 184), and
the test set is evaluated with the corrected elite. Under the nested guard
`0 == (generation + 1) % 1000` (line 275) the loop at lines 291-294
evaluates `train_set[batch_id]` on one device but passes
`train_set[0][batch_id]` to `update_energy_force_virial`. -/
def report_error (nb nva : ℕ) (shift : ℚ) (generation : ℕ) (elite : ℕ → ℚ) : ReportResult :=
  if (generation + 1) % 100 = 0 then
    if (generation + 1) % 1000 = 0 then
      { fired := true, trainDumpFired := true,
        calls := [RCall.trainEval (generation % nb) 1 false, RCall.testEval 1 true] ++
          (List.range nb).map (fun batch_id => RCall.trainEval batch_id 1 true),
        elite := Function.update elite (nva - 1) (elite (nva - 1) + shift),
        evalTrainPairs := (List.range nb).map (fun batch_id => (batch_id, 0)),
        dumpTrainPairs := (List.range nb).map (fun batch_id => (0, batch_id)) }
    else
      { fired := true, trainDumpFired := false,
        calls := [RCall.trainEval (generation % nb) 1 false, RCall.testEval 1 true],
        elite := Function.update elite (nva - 1) (elite (nva - 1) + shift),
        evalTrainPairs := [], dumpTrainPairs := [] }
  else
    { fired := false, trainDumpFired := false, calls := [], elite := elite,
      evalTrainPairs := [], dumpTrainPairs := [] }

/-- C6: the checkpoint body of `Fitness::report_error` executes iff
`(generation + 1) % 100 == 0`, i.e. exactly at generations `99, 199, ...`
(zero-indexed), and the nested extended training-set dump executes iff
`(generation + 1) % 1000 == 0`, i.e. exactly at generations `999, 1999, ...`. -/
theorem fitness_checkpoint_cadence (nb nva : ℕ) (shift : ℚ) (generation : ℕ) (elite : ℕ → ℚ) :
    ((report_error nb nva shift generation elite).fired = true ↔ (generation + 1) % 100 = 0) ∧
    ((generation + 1) % 100 = 0 ↔ ∃ k, generation = 100 * k + 99) ∧
    ((report_error nb nva shift generation elite).trainDumpFired = true ↔
      (generation + 1) % 1000 = 0) ∧
    ((generation + 1) % 1000 = 0 ↔ ∃ k, generation = 1000 * k + 999) := by
  refine ⟨?_, ?_, ?_, ?_⟩
  · rw [report_error]
    split_ifs with h1 h2
    · simp [h1]
    · simp [h1]
    · simp [h1]
  · constructor
    · intro h
      exact ⟨(generation + 1) / 100 - 1, by omega⟩
    · rintro ⟨k, rfl⟩
      omega
  · rw [report_error]
    split_ifs with h1 h2
    · simp [h2]
    · simp [h2]
    · simp only [Bool.false_eq_true, false_iff]
      omega
  · constructor
    · intro h
      exact ⟨(generation + 1) / 1000 - 1, by omega⟩
    · rintro ⟨k, rfl⟩
      omega

/-- The spec's energy bias: the mean per-structure residual between the
predicted and the reference energies. -/
def energyBias (pred ref_e : List ℚ) : ℚ :=
  (List.zipWith (fun a b => a - b) pred ref_e).sum / pred.length

/-- Modelled from the spec: `energy_shift_per_structure`, the value computed
by `Dataset::get_rmse_energy` (dataset.cu, which is not part of the
excerpt) and added to the last ANN bias parameter by `Fitness::report_error`
(fitness.cu line 184). The spec states that the checkpoint subtracts the
mean predicted-minus-reference per-structure energy residual from that
parameter; since the visible code adds the shift, the shift is the mean
reference-minus-predicted per-structure residual. -/
def energy_shift_per_structure (pred ref_e : List ℚ) : ℚ :=
  (List.zipWith (fun a b => a - b) ref_e pred).sum / ref_e.length

theorem zipWith_sub_sum_anti : ∀ (x y : List ℚ),
    (List.zipWith (fun a b => a - b) y x).sum = -(List.zipWith (fun a b => a - b) x y).sum := by
  intro x
  induction x with
  | nil => intro y; cases y <;> simp
  | cons a x ih =>
    intro y
    cases y with
    | nil => simp
    | cons b y =>
      simp only [List.zipWith_cons_cons, List.sum_cons, ih y]
      ring

/-- C7: at a checkpoint, after the head call re-evaluating the elite on its
current batch, the engine subtracts the mean predicted-minus-reference
per-structure energy residual from the last additive bias parameter
`elite[number_of_variables_ann - 1]` and changes no other component of the
elite vector. -/
theorem fitness_checkpoint_bias (nb nva : ℕ) (pred ref_e : List ℚ)
    (hlen : pred.length = ref_e.length) (generation : ℕ) (hg : (generation + 1) % 100 = 0)
    (elite : ℕ → ℚ) :
    (report_error nb nva (energy_shift_per_structure pred ref_e) generation elite).calls.head? =
      some (RCall.trainEval (generation % nb) 1 false) ∧
    (report_error nb nva (energy_shift_per_structure pred ref_e) generation elite).elite
      (nva - 1) = elite (nva - 1) - energyBias pred ref_e ∧
    (∀ j, j ≠ nva - 1 →
      (report_error nb nva (energy_shift_per_structure pred ref_e) generation elite).elite j =
        elite j) := by
  have hshift : energy_shift_per_structure pred ref_e = -energyBias pred ref_e := by
    rw [energy_shift_per_structure, energyBias, zipWith_sub_sum_anti pred ref_e, hlen]
    ring
  rw [report_error, if_pos hg]
  by_cases h2 : (generation + 1) % 1000 = 0
  · rw [if_pos h2]
    refine ⟨rfl, ?_, ?_⟩
    · simp only [Function.update_same, hshift]; ring
    · intro j hj; simp only [Function.update_noteq hj]
  · rw [if_neg h2]
    refine ⟨rfl, ?_, ?_⟩
    · simp only [Function.update_same, hshift]; ring
    · intro j hj; simp only [Function.update_noteq hj]

/-- Witness for C7 at generation 99 with one batch, one ANN variable,
`pred = [1]`, `ref = [2]`: the bias is `-1` and the last parameter moves
from `0` to `1`. -/
theorem fitness_checkpoint_bias_wit :
    (report_error 1 1 (energy_shift_per_structure [1] [2]) 99 (fun _ => 0)).elite 0 =
      (fun _ => (0:ℚ)) 0 - energyBias [1] [2] :=
  (fitness_checkpoint_bias 1 1 [1] [2] (by decide) 99 (by decide) (fun _ => 0)).2.1

/-- C8 (code-bug witness): at generation 999 with two training batches and
one device, the extended dump loop of `Fitness::report_error` evaluates the
Datasets `train_set[batch_id][0]` for `batch_id = 0, 1` but hands
`train_set[0][batch_id]` to `update_energy_force_virial`: the dumped
dataset index pairs `[(0,0), (0,1)]` differ from the evaluated ones
`[(0,0), (1,0)]`, and the pair `(0,1)` names device index 1, which does not
exist with one device. -/
theorem fitness_train_dump_swapped :
    (report_error 2 1 0 999 (fun _ => 0)).trainDumpFired = true ∧
    (report_error 2 1 0 999 (fun _ => 0)).evalTrainPairs = [(0, 0), (1, 0)] ∧
    (report_error 2 1 0 999 (fun _ => 0)).dumpTrainPairs = [(0, 0), (0, 1)] ∧
    (report_error 2 1 0 999 (fun _ => 0)).dumpTrainPairs ≠
      (report_error 2 1 0 999 (fun _ => 0)).evalTrainPairs ∧
    (∃ p ∈ (report_error 2 1 0 999 (fun _ => 0)).dumpTrainPairs, ¬ p.2 < 1) := by
  refine ⟨by decide, by decide, by decide, by decide, ⟨(0, 1), by decide, by decide⟩⟩

/-- Modelled from the spec: the pooled sum of squared residuals between a
predicted and a reference buffer, the quantity underlying the
`Dataset::get_rmse_{energy,force,virial}` reductions (dataset.cu, which is
not part of the excerpt). -/
def ssr : List ℚ → List ℚ → ℚ
  | a :: x, b :: y => (a - b) ^ 2 + ssr x y
  | _, _ => 0

/-- Modelled from the spec: the mean squared residual over the pooled set. -/
def msr (x y : List ℚ) : ℚ := ssr x y / x.length

/-- Modelled from the spec: RMSE is the square root of the mean squared
residual over the relevant pooled set. -/
noncomputable def rmse (x y : List ℚ) : ℝ := Real.sqrt ((msr x y : ℚ) : ℝ)

theorem ssr_self : ∀ x : List ℚ, ssr x x = 0 := by
  intro x
  induction x with
  | nil => rfl
  | cons a x ih => simp [ssr, ih]

theorem ssr_nonneg : ∀ x y : List ℚ, 0 ≤ ssr x y := by
  intro x
  induction x with
  | nil => intro y; cases y <;> simp [ssr]
  | cons a x ih =>
    intro y
    cases y with
    | nil => simp [ssr]
    | cons b y => exact add_nonneg (sq_nonneg _) (ih y)

theorem ssr_eq_zero_iff : ∀ x y : List ℚ, x.length = y.length → (ssr x y = 0 ↔ x = y) := by
  intro x
  induction x with
  | nil =>
    intro y h
    cases y with
    | nil => simp [ssr]
    | cons b y => simp at h
  | cons a x ih =>
    intro y h
    cases y with
    | nil => simp at h
    | cons b y =>
      simp only [List.length_cons, Nat.add_right_cancel_iff] at h
      rw [show ssr (a :: x) (b :: y) = (a - b) ^ 2 + ssr x y from rfl,
        add_eq_zero_iff_of_nonneg (sq_nonneg _) (ssr_nonneg x y), sq_eq_zero_iff,
        sub_eq_zero, ih y h, List.cons_eq_cons]

theorem msr_self (x : List ℚ) : msr x x = 0 := by
  rw [msr, ssr_self]; simp

theorem msr_nonneg (x y : List ℚ) : 0 ≤ msr x y :=
  div_nonneg (ssr_nonneg x y) (Nat.cast_nonneg _)

theorem msr_eq_zero_iff (x y : List ℚ) (h : x.length = y.length) : msr x y = 0 ↔ x = y := by
  rw [msr, div_eq_zero_iff]
  constructor
  · rintro (hz | hz)
    · exact (ssr_eq_zero_iff x y h).mp hz
    · have hx : x.length = 0 := by exact_mod_cast hz
      have hxe : x = [] := List.length_eq_zero.mp hx
      have hye : y = [] := List.length_eq_zero.mp (by omega)
      rw [hxe, hye]
  · rintro rfl
    exact Or.inl (ssr_self x)

theorem rmse_nonneg (x y : List ℚ) : 0 ≤ rmse x y := Real.sqrt_nonneg _

theorem rmse_self (x : List ℚ) : rmse x x = 0 := by
  rw [rmse, msr_self]
  simp

theorem rmse_eq_zero_iff (x y : List ℚ) (h : x.length = y.length) : rmse x y = 0 ↔ x = y := by
  rw [rmse, Real.sqrt_eq_zero (by exact_mod_cast msr_nonneg x y), Rat.cast_eq_zero]
  exact msr_eq_zero_iff x y h

/-- C9: RMSE laws and the end-to-end zero scenario. `rmse x x = 0` for any
buffer `x`; a weighted fitness component `lambda * rmse` is nonnegative and
is exactly 0 iff the predicted buffer equals the reference buffer; and when
the Potential Evaluator returns the references unchanged (each oracle RMSE
compares a reference buffer with itself), the three fitness components
written by `Fitness::compute` for every evaluated individual are exactly 0. -/
theorem fitness_rmse_zero_law (x y : List ℚ) (hlen : x.length = y.length)
    (lam_e lam_f lam_v : ℝ) (he : 0 < lam_e) (hf : 0 < lam_f) (hv : 0 < lam_v)
    (refE refF refV : ℕ → ℕ → ℕ → List ℚ)
    (dc P nb generation n m : ℕ) (hg : generation ≠ 0)
    (hn : n < min_population_iter dc P) (hm : m < device_in_this_iter dc P n)
    (fitness : ℕ → ℝ) :
    rmse x x = 0 ∧
    (0 ≤ lam_e * rmse x y ∧ 0 ≤ lam_f * rmse x y ∧ 0 ≤ lam_v * rmse x y) ∧
    ((lam_e * rmse x y = 0 ↔ x = y) ∧ (lam_f * rmse x y = 0 ↔ x = y) ∧
      (lam_v * rmse x y = 0 ↔ x = y)) ∧
    computeFitness dc P nb lam_e lam_f lam_v
      (fun b n' m' => rmse (refE b n' m') (refE b n' m'))
      (fun b n' m' => rmse (refF b n' m') (refF b n' m'))
      (fun b n' m' => rmse (refV b n' m') (refV b n' m'))
      generation fitness (dc * n + m) = 0 ∧
    computeFitness dc P nb lam_e lam_f lam_v
      (fun b n' m' => rmse (refE b n' m') (refE b n' m'))
      (fun b n' m' => rmse (refF b n' m') (refF b n' m'))
      (fun b n' m' => rmse (refV b n' m') (refV b n' m'))
      generation fitness (dc * n + m + P) = 0 ∧
    computeFitness dc P nb lam_e lam_f lam_v
      (fun b n' m' => rmse (refE b n' m') (refE b n' m'))
      (fun b n' m' => rmse (refF b n' m') (refF b n' m'))
      (fun b n' m' => rmse (refV b n' m') (refV b n' m'))
      generation fitness (dc * n + m + 2 * P) = 0 := by
  have happ := computeFitness_apply dc P nb lam_e lam_f lam_v
    (fun b n' m' => rmse (refE b n' m') (refE b n' m'))
    (fun b n' m' => rmse (refF b n' m') (refF b n' m'))
    (fun b n' m' => rmse (refV b n' m') (refV b n' m'))
    generation hg n m hn hm fitness
  have hiff : ∀ lam : ℝ, 0 < lam → (lam * rmse x y = 0 ↔ x = y) := by
    intro lam hlam
    constructor
    · intro h0
      rcases mul_eq_zero.mp h0 with h | h
      · exact absurd h hlam.ne'
      · exact (rmse_eq_zero_iff x y hlen).mp h
    · rintro rfl
      rw [rmse_self, mul_zero]
  refine ⟨rmse_self x,
    ⟨mul_nonneg he.le (rmse_nonneg x y), mul_nonneg hf.le (rmse_nonneg x y),
      mul_nonneg hv.le (rmse_nonneg x y)⟩,
    ⟨hiff lam_e he, hiff lam_f hf, hiff lam_v hv⟩, ?_, ?_, ?_⟩
  · rw [happ.1, rmse_self, mul_zero]
  · rw [happ.2.1, rmse_self, mul_zero]
  · rw [happ.2.2, rmse_self, mul_zero]

/-- Witness for C9 with equal-length buffers `[1,2]` and `[1,3]` and
positive unit weights. -/
theorem fitness_rmse_zero_law_wit :
    rmse [1, 2] [1, 2] = 0 ∧
    computeFitness 1 1 1 (1:ℝ) 1 1 (fun _ _ _ => rmse [5] [5]) (fun _ _ _ => rmse [5] [5])
      (fun _ _ _ => rmse [5] [5]) 1 (fun _ => 3) 0 = 0 := by
  have h := fitness_rmse_zero_law [1, 2] [1, 3] (by decide) 1 1 1 (by norm_num) (by norm_num)
    (by norm_num) (fun _ _ _ => [5]) (fun _ _ _ => [5]) (fun _ _ _ => [5]) 1 1 1 1 0 0
    (by decide) (by decide) (by decide) (fun _ => 3)
  exact ⟨h.1, by simpa using h.2.2.2.1⟩

/-- The inner accumulation loop of `Fitness::predict_energy_or_stress`
(fitness.cu lines 156-159): `data_nc += data[offset + m]` for
`m < Na_cpu[nc]`, starting from `0.0f`. -/
def predictSum (data : ℕ → ℚ) (offset cnt : ℕ) : ℚ :=
  (List.range cnt).foldl (fun acc m => acc + data (offset + m)) 0

/-- `Fitness::predict_energy_or_stress` (fitness.cu lines 152-162): one
emitted line per structure `nc`, in structure order: the accumulated
predicted buffer over the structure's atoms divided by the atom count
`Na_cpu[nc]`, then the reference value `ref[nc]` exactly as stored. -/
def predict_energy_or_stress (data ref_data : ℕ → ℚ) (Na Na_sum : ℕ → ℕ) (Nc : ℕ) :
    List (ℚ × ℚ) :=
  (List.range Nc).foldl
    (fun lines nc =>
      lines ++ [(predictSum data (Na_sum nc) (Na nc) / (Na nc : ℚ), ref_data nc)]) []

theorem foldl_append_singleton {β : Type} (f : ℕ → β) :
    ∀ (k : ℕ) (acc : List β),
      (List.range k).foldl (fun lines nc => lines ++ [f nc]) acc =
        acc ++ (List.range k).map f := by
  intro k
  induction k with
  | zero => intro acc; simp
  | succ k ih =>
    intro acc
    rw [List.range_succ, List.foldl_append, ih acc, List.map_append]
    simp

theorem predictSum_eq (data : ℕ → ℚ) (offset cnt : ℕ) :
    predictSum data offset cnt = ((List.range cnt).map (fun m => data (offset + m))).sum := by
  rw [predictSum, List.sum_eq_foldl, List.foldl_map]

/-- C10: the emitted dump lines of `predict_energy_or_stress` are exactly,
in structure order, the pairs (per-atom average of the predicted buffer over
the structure's `Na[nc]` atoms starting at offset `Na_sum[nc]`, reference
value as stored, undivided). -/
theorem fitness_predict_lines (data ref_data : ℕ → ℚ) (Na Na_sum : ℕ → ℕ) (Nc : ℕ) :
    predict_energy_or_stress data ref_data Na Na_sum Nc =
      (List.range Nc).map (fun nc =>
        (((List.range (Na nc)).map (fun m => data (Na_sum nc + m))).sum / (Na nc : ℚ),
          ref_data nc)) := by
  rw [predict_energy_or_stress, foldl_append_singleton]
  rw [List.nil_append]
  refine List.map_congr_left ?_
  intro nc _
  rw [predictSum_eq]

end GPUMD
